import Mathlib

/-!
# Verification of the church-youtube-knowledge-bot core

Shallow embedding of the backend coordination core of the repository:

* the Ingestion State Machine trigger
  `update_video_status_on_transcript_change`
  (src/supabase/migrations/004_functions.sql),
* the credential encryption utilities `encrypt` / `decrypt`
  (src/lib/utils/encryption.ts),
* the token manager `getYouTubeTokens` and `isTokenExpired`
  (src/lib/youtube/token-manager.ts, src/lib/youtube/oauth.ts),
* the vector search function `search_transcripts`
  (src/supabase/migrations/003_pgvector_setup.sql),
* the `oauth_tokens` upsert used by the OAuth callback
  (src/app/api/youtube/callback/route.ts) together with the
  `UNIQUE(church_id, provider)` constraint of 001_initial_schema.sql,
* a model of job dispatch against the `processing_jobs` ledger.

External primitives (AES-256-GCM, PBKDF2, pgvector's cosine-distance
operator) are parameters of the model, constrained only by the properties
the standard library they come from guarantees.
-/

namespace ChurchBot

/-! ## Ingestion State Machine

Model of the `videos.status` column and the trigger function
`update_video_status_on_transcript_change` of
src/supabase/migrations/004_functions.sql.  A `VideoState` carries the
video row (the columns the trigger touches) together with the `embedding`
column of the video's transcript segments, ordered by `segment_index`.
-/

/-- The `videos.status` enum of 001_initial_schema.sql. -/
inductive VideoStatus where
  | pending
  | processing
  | completed
  | indexed
  | failed
deriving DecidableEq, Repr

/-- The columns of a `videos` row that the trigger reads or writes. -/
structure VideoRow where
  status : VideoStatus
  has_embeddings : Bool
deriving DecidableEq, Repr

/-- A video row together with the `embedding` column of its transcript
segments (indexed by `segment_index`, `α` is the vector type). -/
structure VideoState (α : Type) where
  video : VideoRow
  segs : List (Option α)
deriving DecidableEq

/-- The `COUNT(embedding)` aggregate over the video's transcript rows: the number of
segments whose embedding is non-null. -/
def countEmbeddings {α : Type} (segs : List (Option α)) : Nat :=
  (segs.filter fun e => e.isSome).length

/-- The body of `update_video_status_on_transcript_change`
(004_functions.sql lines 29–84), as a function of the current video row
and the two counts it computes.  Note that only the `processing` and
`completed` branches carry the `status != 'failed'` guard; the `indexed`
branch updates unconditionally. -/
def update_video_status_on_transcript_change (v : VideoRow)
    (total_segments segments_with_embeddings : Nat) : VideoRow :=
  if 0 < total_segments then
    if segments_with_embeddings = total_segments then
      { status := .indexed, has_embeddings := true }
    else if 0 < segments_with_embeddings then
      if v.status = .failed then v
      else { status := .processing, has_embeddings := false }
    else
      if v.status = .failed then v
      else { status := .completed, has_embeddings := false }
  else v

/-- Run the trigger body against the owning video, with
`total = COUNT(*)` and `with_embeddings = COUNT(embedding)` recomputed
from the current transcript rows. -/
def fireTrigger {α : Type} (vs : VideoState α) : VideoState α :=
  { vs with
    video := update_video_status_on_transcript_change vs.video
      vs.segs.length (countEmbeddings vs.segs) }

/-- An `INSERT` of a transcript row: the `AFTER INSERT` trigger
`update_video_status_on_transcript_insert` always fires. -/
def insertSegment {α : Type} (vs : VideoState α) (e : Option α) :
    VideoState α :=
  fireTrigger { vs with segs := vs.segs ++ [e] }

/-- An `UPDATE` of one segment's `embedding`: the `AFTER UPDATE` trigger
fires only `WHEN (OLD.embedding IS DISTINCT FROM NEW.embedding)`; an
update matching no row does nothing. -/
def updateEmbedding {α : Type} [DecidableEq α] (vs : VideoState α)
    (i : Nat) (e : Option α) : VideoState α :=
  if h : i < vs.segs.length then
    if vs.segs.get ⟨i, h⟩ = e then { vs with segs := vs.segs.set i e }
    else fireTrigger { vs with segs := vs.segs.set i e }
  else vs

/-- A single write against the transcript table of one video. -/
inductive SegWrite (α : Type) where
  | insert (e : Option α)
  | update (i : Nat) (e : Option α)

/-- Apply one transcript write, triggers included. -/
def applyWrite {α : Type} [DecidableEq α] (vs : VideoState α) :
    SegWrite α → VideoState α
  | .insert e => insertSegment vs e
  | .update i e => updateEmbedding vs i e

/-- All of the video's segments exist and carry an embedding: the
condition under which the trigger's unguarded `indexed` branch runs. -/
def fullyEmbedded {α : Type} (vs : VideoState α) : Prop :=
  0 < vs.segs.length ∧ countEmbeddings vs.segs = vs.segs.length

instance {α : Type} (vs : VideoState α) : Decidable (fullyEmbedded vs) := by
  unfold fullyEmbedded; infer_instance

theorem countEmbeddings_le_length {α : Type} (l : List (Option α)) :
    countEmbeddings l ≤ l.length :=
  List.length_filter_le _ _

theorem countEmbeddings_append_one {α : Type} (l : List (Option α))
    (e : Option α) :
    countEmbeddings (l ++ [e]) =
      countEmbeddings l + (if e.isSome then 1 else 0) := by
  cases e <;> simp [countEmbeddings, List.filter_append]

theorem countEmbeddings_replicate_none {α : Type} (k : Nat) :
    countEmbeddings (List.replicate k (none : Option α)) = 0 := by
  induction k with
  | zero => rfl
  | succ n _ => simp [List.replicate_succ, countEmbeddings]

theorem countEmbeddings_set_some {α : Type} (l : List (Option α)) (i : Nat)
    (x : α) (h : l[i]? = some none) :
    countEmbeddings (l.set i (some x)) = countEmbeddings l + 1 := by
  induction l generalizing i with
  | nil => simp at h
  | cons a t ih =>
    cases i with
    | zero =>
      simp only [List.getElem?_cons_zero, Option.some_inj] at h
      subst h
      simp [countEmbeddings]
    | succ n =>
      simp only [List.getElem?_cons_succ] at h
      cases a <;> simp [countEmbeddings, List.set] at ih ⊢ <;>
        exact ih n h

theorem length_pos_of_getElem?_some {α : Type} {l : List (Option α)} {i : Nat}
    (h : l[i]? = some none) : i < l.length := by
  by_contra hc
  rw [List.getElem?_eq_none (Nat.le_of_not_lt hc)] at h
  exact Option.noConfusion h

/-- One transcript write against a `failed` video either leaves the status
`failed`, or runs the unguarded `indexed` branch, which requires every
segment to carry an embedding. -/
theorem applyWrite_failed {α : Type} [DecidableEq α] (vs : VideoState α)
    (w : SegWrite α) (h : vs.video.status = .failed) :
    (applyWrite vs w).video.status = .failed ∨
      ((applyWrite vs w).video.status = .indexed ∧
        fullyEmbedded (applyWrite vs w)) := by
  cases w with
  | insert e =>
    simp only [applyWrite, insertSegment, fireTrigger,
      update_video_status_on_transcript_change, fullyEmbedded]
    split
    · split
      · rename_i h1 h2
        right
        exact ⟨rfl, h1, h2⟩
      · split
        · simp [h]
        · simp [h]
    · left; exact h
  | update i e =>
    simp only [applyWrite, updateEmbedding]
    split
    · split
      · left; exact h
      · simp only [fireTrigger, update_video_status_on_transcript_change,
          fullyEmbedded]
        split
        · split
          · rename_i h1 h2
            right
            exact ⟨rfl, by simpa using h1, by simpa using h2⟩
          · split
            · simp [h]
            · simp [h]
        · left; exact h
    · left; exact h

/-- Iterated form: as long as no write results in a fully embedded
segment set, a `failed` video stays `failed` under any sequence of
transcript writes. -/
theorem foldl_applyWrite_failed {α : Type} [DecidableEq α]
    (ws : List (SegWrite α)) (vs : VideoState α)
    (h : vs.video.status = .failed)
    (hnc : ∀ p, p <+: ws → ¬ fullyEmbedded (p.foldl applyWrite vs)) :
    (ws.foldl applyWrite vs).video.status = .failed := by
  induction ws generalizing vs with
  | nil => simpa using h
  | cons w rest ih =>
    have hstep := applyWrite_failed vs w h
    have hnot : ¬ fullyEmbedded (applyWrite vs w) := by
      have := hnc [w] ⟨rest, rfl⟩
      simpa using this
    have hfail : (applyWrite vs w).video.status = .failed := by
      rcases hstep with h1 | ⟨_, h2⟩
      · exact h1
      · exact absurd h2 hnot
    simp only [List.foldl_cons]
    exact ih (applyWrite vs w) hfail (by
      intro p hp
      have := hnc (w :: p) (by
        obtain ⟨s, hs⟩ := hp
        exact ⟨s, by simp [hs]⟩)
      simpa using this)

/-- Inserting `n ≥ 1` embedding-less transcript segments, starting from a
non-failed video: every insert fires the trigger's `completed` branch. -/
theorem foldl_insert_none {α : Type} [DecidableEq α] (n m : Nat)
    (v : VideoRow) (hnf : v.status ≠ .failed) (hn : 0 < n) :
    ((List.replicate n (SegWrite.insert (none : Option α))).foldl applyWrite
        ⟨v, List.replicate m (none : Option α)⟩) =
      ⟨⟨.completed, false⟩, List.replicate (m + n) none⟩ := by
  induction n generalizing v m with
  | zero => omega
  | succ k ih =>
    rw [List.replicate_succ, List.foldl_cons]
    have hstep :
        applyWrite (⟨v, List.replicate m (none : Option α)⟩ : VideoState α)
            (SegWrite.insert none) =
          ⟨⟨.completed, false⟩, List.replicate (m + 1) none⟩ := by
      simp only [applyWrite, insertSegment, fireTrigger,
        update_video_status_on_transcript_change]
      have h1 : (List.replicate m (none : Option α) ++ [none]) =
          List.replicate (m + 1) none := by
        rw [List.replicate_succ' m]
      rw [h1]
      have h2 : countEmbeddings (List.replicate (m + 1) (none : Option α)) = 0 :=
        countEmbeddings_replicate_none _
      rw [h2]
      simp [hnf]
    rw [hstep]
    cases k with
    | zero => simp
    | succ k' =>
      have harith : m + 1 + (k' + 1) = m + (k' + 1 + 1) := by omega
      have := ih (m + 1) (⟨.completed, false⟩ : VideoRow) (by simp) (by omega)
      rw [this, harith]

/-- Core induction for the any-order embedding scenario: folding embedding
updates over pairwise-distinct, still-unembedded positions of a non-failed
video with `n` segments increments `COUNT(embedding)` once per update and
leaves the status on the branch determined by the final counts. -/
theorem foldl_updateEmbedding_fresh {α : Type} [DecidableEq α] {n : Nat}
    (us : List (Fin n × α)) (vs : VideoState α)
    (hlen : vs.segs.length = n)
    (hnodup : (us.map Prod.fst).Nodup)
    (hfresh : ∀ p ∈ us, vs.segs[p.1.val]? = some none)
    (hnf : vs.video.status ≠ .failed) :
    ((us.foldl (fun s p => updateEmbedding s p.1.val (some p.2)) vs).segs.length
        = n) ∧
    (countEmbeddings
        (us.foldl (fun s p => updateEmbedding s p.1.val (some p.2)) vs).segs =
      countEmbeddings vs.segs + us.length) ∧
    (us ≠ [] →
      (us.foldl (fun s p => updateEmbedding s p.1.val (some p.2)) vs).video.status
        = (if countEmbeddings vs.segs + us.length = n then .indexed
           else .processing)) ∧
    (us = [] →
      (us.foldl (fun s p => updateEmbedding s p.1.val (some p.2)) vs) = vs) := by
  induction us generalizing vs with
  | nil => simp [hlen]
  | cons p rest ih =>
    have hp : vs.segs[p.1.val]? = some none := hfresh p (by simp)
    have hlt : p.1.val < vs.segs.length := length_pos_of_getElem?_some hp
    have hget : vs.segs[p.1.val] = (none : Option α) := by
      have h2 := List.getElem?_eq_getElem hlt
      rw [hp] at h2
      exact (Option.some_inj.mp h2).symm
    -- the update fires: old value `none` IS DISTINCT FROM `some p.2`
    have hstep :
        updateEmbedding vs p.1.val (some p.2) =
          fireTrigger { vs with segs := vs.segs.set p.1.val (some p.2) } := by
      rw [updateEmbedding, dif_pos hlt, if_neg (by simp [hget])]
    set segs' := vs.segs.set p.1.val (some p.2) with hsegs'
    have hlen' : segs'.length = n := by simp [hsegs', hlen]
    have hcount' : countEmbeddings segs' = countEmbeddings vs.segs + 1 :=
      countEmbeddings_set_some _ _ _ hp
    have hcpos : 0 < countEmbeddings segs' := by omega
    have hnpos : 0 < n := Nat.lt_of_le_of_lt (Nat.zero_le _) p.1.isLt
    have hvs' :
        fireTrigger { vs with segs := segs' } =
          ⟨update_video_status_on_transcript_change vs.video n
              (countEmbeddings segs'), segs'⟩ := by
      simp [fireTrigger, hlen']
    have hstatus' :
        (update_video_status_on_transcript_change vs.video n
            (countEmbeddings segs')).status =
          (if countEmbeddings segs' = n then .indexed else .processing) := by
      simp only [update_video_status_on_transcript_change, if_pos hnpos]
      by_cases hEq : countEmbeddings segs' = n
      · rw [if_pos hEq, if_pos hEq]
      · rw [if_neg hEq, if_neg hEq, if_pos hcpos, if_neg hnf]
    have hnf' :
        (update_video_status_on_transcript_change vs.video n
            (countEmbeddings segs')).status ≠ .failed := by
      rw [hstatus']
      split <;> simp
    have hfresh' : ∀ q ∈ rest,
        (fireTrigger { vs with segs := segs' }).segs[q.1.val]? = some none := by
      intro q hq
      rw [hvs']
      show segs'[q.1.val]? = some none
      have hne : p.1.val ≠ q.1.val := by
        have : p.1 ≠ q.1 := by
          simp only [List.map_cons, List.nodup_cons] at hnodup
          intro hEq
          exact hnodup.1 (hEq ▸ List.mem_map_of_mem Prod.fst hq)
        exact fun hv => this (Fin.ext hv)
      rw [hsegs', List.getElem?_set_ne hne]
      exact hfresh q (List.mem_cons_of_mem _ hq)
    have hIH := ih (fireTrigger { vs with segs := segs' })
      (by rw [hvs']; exact hlen')
      (by simp only [List.map_cons, List.nodup_cons] at hnodup; exact hnodup.2)
      hfresh'
      (by rw [hvs']; exact hnf')
    rw [List.foldl_cons, hstep]
    refine ⟨hIH.1, ?_, ?_, by simp⟩
    · rw [hIH.2.1, hvs']
      show countEmbeddings segs' + rest.length = _
      rw [hcount', List.length_cons]
      omega
    · intro _
      cases rest with
      | nil =>
        have hfin := hIH.2.2.2 rfl
        rw [hfin, hvs']
        show (update_video_status_on_transcript_change vs.video n
            (countEmbeddings segs')).status = _
        rw [hstatus', hcount']
        simp
      | cons r rs =>
        have hfin := hIH.2.2.1 (by simp)
        rw [hfin, hvs']
        show (if countEmbeddings segs' + (r :: rs).length = n
            then VideoStatus.indexed else VideoStatus.processing) = _
        rw [hcount']
        have harith : countEmbeddings vs.segs + 1 + (r :: rs).length =
            countEmbeddings vs.segs + (p :: r :: rs).length := by
          simp only [List.length_cons]
          omega
        rw [harith]

/-- C1, counterexample: the claim "the status-recomputation routine never
moves a video out of `failed`" is false.  A failed video with a single
embeddingless segment: writing that segment's embedding makes every
segment embedded, and the trigger's `indexed` branch — which carries no
`status != 'failed'` guard — sets the status to `indexed`. -/
theorem C1_counterexample :
    (updateEmbedding (⟨⟨.failed, false⟩, [none]⟩ : VideoState Nat) 0
        (some 0)).video.status = .indexed ∧
      ¬ (updateEmbedding (⟨⟨.failed, false⟩, [none]⟩ : VideoState Nat) 0
        (some 0)).video.status = .failed := by
  decide

/-- C1, amended: a transcript write against a `failed` video leaves the
status `failed` unless it results in every segment (at least one) having
an embedding, in which case the unguarded `indexed` branch moves the video
to `indexed`; consequently any sequence of writes none of which reaches
the fully-embedded state leaves the status `failed`. -/
theorem C1_failed_sticky_unless_fully_embedded {α : Type} [DecidableEq α] :
    (∀ (vs : VideoState α) (w : SegWrite α), vs.video.status = .failed →
      ((applyWrite vs w).video.status = .failed ∨
        ((applyWrite vs w).video.status = .indexed ∧
          fullyEmbedded (applyWrite vs w)))) ∧
    (∀ (vs : VideoState α) (ws : List (SegWrite α)),
      vs.video.status = .failed →
      (∀ p, p <+: ws → ¬ fullyEmbedded (p.foldl applyWrite vs)) →
      (ws.foldl applyWrite vs).video.status = .failed) :=
  ⟨applyWrite_failed, fun vs ws h hnc => foldl_applyWrite_failed ws vs h hnc⟩

/-- C1, witness: instance of the amended theorem at a concrete state. -/
theorem C1_failed_sticky_witness :
    (applyWrite (⟨⟨.failed, false⟩, [none, none]⟩ : VideoState Nat)
        (.insert none)).video.status = .failed ∨
      ((applyWrite (⟨⟨.failed, false⟩, [none, none]⟩ : VideoState Nat)
          (.insert none)).video.status = .indexed ∧
        fullyEmbedded (applyWrite
          (⟨⟨.failed, false⟩, [none, none]⟩ : VideoState Nat)
          (.insert none))) :=
  C1_failed_sticky_unless_fully_embedded.1 _ _ rfl

/-- C2: the recomputation routine follows the transition table of the
spec — `total = 0` leaves the row unchanged; `with = total > 0` yields
`indexed`; `0 < with < total` yields `processing` unless the video is
`failed`; `with = 0 < total` yields `completed` unless `failed` — and in
the 10-segment scenario, embedding any 1–9 distinct segments (in any
order) yields `processing`, and embedding all 10 yields `indexed`. -/
theorem C2_status_recomputation {α : Type} [DecidableEq α] :
    (∀ (v : VideoRow) (total w : Nat),
      (total = 0 →
        update_video_status_on_transcript_change v total w = v) ∧
      (0 < total → w = total →
        update_video_status_on_transcript_change v total w =
          ⟨.indexed, true⟩) ∧
      (0 < total → 0 < w → w < total →
        update_video_status_on_transcript_change v total w =
          (if v.status = .failed then v else ⟨.processing, false⟩)) ∧
      (0 < total → w = 0 →
        update_video_status_on_transcript_change v total w =
          (if v.status = .failed then v else ⟨.completed, false⟩))) ∧
    (∀ (us : List (Fin 10 × α)), (us.map Prod.fst).Nodup →
      (1 ≤ us.length → us.length ≤ 9 →
        (us.foldl (fun s p => updateEmbedding s p.1.val (some p.2))
            ((List.replicate 10 (SegWrite.insert (none : Option α))).foldl
              applyWrite ⟨⟨.pending, false⟩, []⟩)).video.status =
          .processing) ∧
      (us.length = 10 →
        (us.foldl (fun s p => updateEmbedding s p.1.val (some p.2))
            ((List.replicate 10 (SegWrite.insert (none : Option α))).foldl
              applyWrite ⟨⟨.pending, false⟩, []⟩)).video.status =
          .indexed)) := by
  constructor
  · intro v total w
    refine ⟨?_, ?_, ?_, ?_⟩
    · intro h0
      rw [update_video_status_on_transcript_change, if_neg (by omega)]
    · intro ht hw
      rw [update_video_status_on_transcript_change, if_pos ht, if_pos hw]
    · intro ht hw hlt
      rw [update_video_status_on_transcript_change, if_pos ht,
        if_neg (by omega), if_pos hw]
    · intro ht hw
      rw [update_video_status_on_transcript_change, if_pos ht,
        if_neg (by omega), if_neg (by omega)]
  · intro us hnodup
    have hvs0 : ((List.replicate 10 (SegWrite.insert (none : Option α))).foldl
        applyWrite ⟨⟨.pending, false⟩, []⟩ : VideoState α) =
        ⟨⟨.completed, false⟩, List.replicate 10 none⟩ := by
      have h := foldl_insert_none (α := α) 10 0 ⟨.pending, false⟩
        (by decide) (by omega)
      simpa using h
    rw [hvs0]
    have hmain := foldl_updateEmbedding_fresh (n := 10) us
      ⟨⟨.completed, false⟩, List.replicate 10 none⟩
      (by simp) hnodup
      (fun p _ => List.getElem?_replicate_of_lt p.1.isLt)
      (by simp)
    constructor
    · intro h1 h9
      have hne : us ≠ [] := by
        intro h
        subst h
        simp at h1
      have hst := hmain.2.2.1 hne
      rw [hst, countEmbeddings_replicate_none, if_neg (by omega)]
    · intro h10
      have hne : us ≠ [] := by
        intro h
        subst h
        simp at h10
      have hst := hmain.2.2.1 hne
      rw [hst, countEmbeddings_replicate_none, if_pos (by omega)]

/-- C2, witness: embedding one of ten segments yields `processing`, and
the table instance at `total = 3`, `with = 3` yields `indexed`. -/
theorem C2_status_recomputation_witness :
    (([((2 : Fin 10), (7 : Nat))].foldl
        (fun s p => updateEmbedding s p.1.val (some p.2))
        ((List.replicate 10 (SegWrite.insert (none : Option Nat))).foldl
          applyWrite ⟨⟨.pending, false⟩, []⟩)).video.status =
      .processing) ∧
    update_video_status_on_transcript_change ⟨.pending, false⟩ 3 3 =
      ⟨.indexed, true⟩ :=
  ⟨(((C2_status_recomputation (α := Nat)).2 [((2 : Fin 10), (7 : Nat))]
      (by simp)).1 (by simp) (by simp)),
    ((C2_status_recomputation (α := Nat)).1 ⟨.pending, false⟩ 3 3).2.1
      (by omega) rfl⟩

/-! ## Credential encryption (src/lib/utils/encryption.ts)

The file serializes AES-256-GCM output as
`base64(salt) : base64(iv) : base64(ciphertext) : base64(authTag)`.
Byte strings are modelled as `List Nat` with every entry `< 256`
(a `String` plaintext stands for its UTF-8 byte sequence).  The external
node `crypto` primitives (PBKDF2, AES-256-GCM) are parameters, constrained
only by the correctness properties of the algorithms they implement.
-/

/-- The `SALT_LENGTH` constant of encryption.ts. -/
def SALT_LENGTH : Nat := 64

/-- The `IV_LENGTH` constant of encryption.ts. -/
def IV_LENGTH : Nat := 16

/-- The `TAG_LENGTH` constant of encryption.ts (GCM auth tags are 16 bytes). -/
def TAG_LENGTH : Nat := 16

/-- The base64 alphabet used by `Buffer.toString('base64')`. -/
def b64Alphabet : List Char :=
  ['A', 'B', 'C', 'D', 'E', 'F', 'G', 'H', 'I', 'J', 'K', 'L', 'M',
   'N', 'O', 'P', 'Q', 'R', 'S', 'T', 'U', 'V', 'W', 'X', 'Y', 'Z',
   'a', 'b', 'c', 'd', 'e', 'f', 'g', 'h', 'i', 'j', 'k', 'l', 'm',
   'n', 'o', 'p', 'q', 'r', 's', 't', 'u', 'v', 'w', 'x', 'y', 'z',
   '0', '1', '2', '3', '4', '5', '6', '7', '8', '9', '+', '/']

/-- Character for a six-bit group. -/
def sextetToChar (n : Nat) : Char := b64Alphabet.getD n 'A'

/-- Six-bit value of a base64 character. -/
def charToSextet (c : Char) : Nat := b64Alphabet.indexOf c

/-- Model of `Buffer.toString('base64')`: encode 3-byte groups as 4 characters,
padding the tail with `=`. -/
def b64Encode : List Nat → List Char
  | [] => []
  | [a] => [sextetToChar (a / 4), sextetToChar (a % 4 * 16), '=', '=']
  | [a, b] =>
      [sextetToChar (a / 4), sextetToChar (a % 4 * 16 + b / 16),
       sextetToChar (b % 16 * 4), '=']
  | a :: b :: c :: rest =>
      sextetToChar (a / 4) :: sextetToChar (a % 4 * 16 + b / 16) ::
      sextetToChar (b % 16 * 4 + c / 64) :: sextetToChar (c % 64) ::
      b64Encode rest

/-- Model of `Buffer.from(s, 'base64')` on well-formed padded base64 text. -/
def b64Decode : List Char → List Nat
  | c1 :: c2 :: c3 :: c4 :: rest =>
      if c3 = '=' then [charToSextet c1 * 4 + charToSextet c2 / 16]
      else if c4 = '=' then
        [charToSextet c1 * 4 + charToSextet c2 / 16,
         charToSextet c2 % 16 * 16 + charToSextet c3 / 4]
      else
        (charToSextet c1 * 4 + charToSextet c2 / 16) ::
        (charToSextet c2 % 16 * 16 + charToSextet c3 / 4) ::
        (charToSextet c3 % 4 * 64 + charToSextet c4) ::
        b64Decode rest
  | _ => []

theorem charToSextet_sextetToChar_fin :
    ∀ i : Fin 64, charToSextet (sextetToChar i.val) = i.val := by decide

theorem sextetToChar_ne_pad_fin : ∀ i : Fin 64, sextetToChar i.val ≠ '=' := by
  decide

theorem sextetToChar_ne_colon (n : Nat) : sextetToChar n ≠ ':' := by
  by_cases h : n < 64
  · exact (show ∀ i : Fin 64, sextetToChar i.val ≠ ':' by decide) ⟨n, h⟩
  · rw [sextetToChar, List.getD_eq_default]
    · decide
    · have : b64Alphabet.length = 64 := by decide
      omega

theorem charToSextet_sextetToChar (n : Nat) (h : n < 64) :
    charToSextet (sextetToChar n) = n :=
  charToSextet_sextetToChar_fin ⟨n, h⟩

theorem sextetToChar_ne_pad (n : Nat) (h : n < 64) : sextetToChar n ≠ '=' :=
  sextetToChar_ne_pad_fin ⟨n, h⟩

/-- Every character of a base64 encoding is an alphabet character or the
padding `=`; in particular the delimiter `:` never occurs. -/
theorem mem_b64Encode (l : List Nat) (c : Char) (h : c ∈ b64Encode l) :
    (∃ n, c = sextetToChar n) ∨ c = '=' := by
  induction l using b64Encode.induct with
  | case1 => simp [b64Encode] at h
  | case2 a =>
    rw [b64Encode] at h
    simp only [List.mem_cons, List.not_mem_nil, or_false] at h
    rcases h with h | h | h | h <;> first
      | (left; exact ⟨_, h⟩)
      | (right; exact h)
  | case3 a b =>
    rw [b64Encode] at h
    simp only [List.mem_cons, List.not_mem_nil, or_false] at h
    rcases h with h | h | h | h <;> first
      | (left; exact ⟨_, h⟩)
      | (right; exact h)
  | case4 a b c' rest ih =>
    rw [b64Encode] at h
    simp only [List.mem_cons] at h
    rcases h with h | h | h | h | h
    · left; exact ⟨_, h⟩
    · left; exact ⟨_, h⟩
    · left; exact ⟨_, h⟩
    · left; exact ⟨_, h⟩
    · exact ih (by simpa using h)

/-- The delimiter `':'` never occurs in a base64 component. -/
theorem colon_not_mem_b64Encode (l : List Nat) : ':' ∉ b64Encode l := by
  intro h
  rcases mem_b64Encode l ':' h with ⟨n, hn⟩ | hp
  · exact sextetToChar_ne_colon n hn.symm
  · exact absurd hp (by decide)

theorem b64Encode_ne_nil (l : List Nat) (h : l ≠ []) : b64Encode l ≠ [] := by
  match l with
  | [] => exact absurd rfl h
  | [a] => simp [b64Encode]
  | [a, b] => simp [b64Encode]
  | a :: b :: c :: rest => simp [b64Encode]

/-- Decoding inverts encoding on byte lists. -/
theorem b64Decode_b64Encode :
    ∀ l : List Nat, (∀ b ∈ l, b < 256) → b64Decode (b64Encode l) = l
  | [], _ => rfl
  | [a], h => by
    have ha : a < 256 := h a (by simp)
    rw [b64Encode]
    rw [b64Decode]
    rw [if_pos rfl]
    rw [charToSextet_sextetToChar (a / 4) (by omega),
      charToSextet_sextetToChar (a % 4 * 16) (by omega)]
    congr 1
    omega
  | [a, b], h => by
    have ha : a < 256 := h a (by simp)
    have hb : b < 256 := h b (by simp)
    rw [b64Encode]
    rw [b64Decode]
    rw [if_neg (sextetToChar_ne_pad (b % 16 * 4) (by omega)), if_pos rfl]
    rw [charToSextet_sextetToChar (a / 4) (by omega),
      charToSextet_sextetToChar (a % 4 * 16 + b / 16) (by omega),
      charToSextet_sextetToChar (b % 16 * 4) (by omega)]
    congr 1
    · omega
    · congr 1
      omega
  | a :: b :: c :: rest, h => by
    have ha : a < 256 := h a (by simp)
    have hb : b < 256 := h b (by simp)
    have hc : c < 256 := h c (by simp)
    have ih := b64Decode_b64Encode rest (fun x hx => h x (by simp [hx]))
    rw [b64Encode]
    rw [b64Decode]
    rw [if_neg (sextetToChar_ne_pad (b % 16 * 4 + c / 64) (by omega)),
      if_neg (sextetToChar_ne_pad (c % 64) (by omega))]
    rw [charToSextet_sextetToChar (a / 4) (by omega),
      charToSextet_sextetToChar (a % 4 * 16 + b / 16) (by omega),
      charToSextet_sextetToChar (b % 16 * 4 + c / 64) (by omega),
      charToSextet_sextetToChar (c % 64) (by omega)]
    rw [ih]
    congr 1
    · omega
    · congr 1
      · omega
      · congr 1
        omega

/-- Model of `Array.prototype.join(':')` over the serialized components. -/
def joinColon (parts : List (List Char)) : List Char :=
  List.intercalate [':'] parts

/-- Model of `String.prototype.split(':')`: split at every `':'`; the empty string
yields `[""]`, adjacent delimiters yield empty components. -/
def splitOnColon : List Char → List (List Char)
  | [] => [[]]
  | c :: rest =>
      if c = ':' then [] :: splitOnColon rest
      else
        match splitOnColon rest with
        | [] => [[c]]
        | p :: ps => (c :: p) :: ps

theorem splitOnColon_ne_nil (s : List Char) : splitOnColon s ≠ [] := by
  match s with
  | [] => simp [splitOnColon]
  | c :: rest =>
    rw [splitOnColon]
    split
    · simp
    · split <;> simp

theorem splitOnColon_no_colon (p : List Char) (hp : ':' ∉ p) :
    splitOnColon p = [p] := by
  induction p with
  | nil => rfl
  | cons c rest ih =>
    have hc : ¬ c = ':' := fun h => hp (h ▸ List.mem_cons_self c rest)
    have hrest : ':' ∉ rest := fun h => hp (List.mem_cons_of_mem c h)
    rw [splitOnColon, if_neg hc, ih hrest]

theorem splitOnColon_append (p t : List Char) (hp : ':' ∉ p) :
    splitOnColon (p ++ ':' :: t) = p :: splitOnColon t := by
  induction p with
  | nil => simp [splitOnColon]
  | cons c rest ih =>
    have hc : ¬ c = ':' := fun h => hp (h ▸ List.mem_cons_self c rest)
    have hrest : ':' ∉ rest := fun h => hp (List.mem_cons_of_mem c h)
    rw [List.cons_append, splitOnColon, if_neg hc, ih hrest]

/-- Splitting the 4-component serialization recovers the components when
none contains the delimiter. -/
theorem splitOnColon_joinColon_four (p1 p2 p3 p4 : List Char)
    (h1 : ':' ∉ p1) (h2 : ':' ∉ p2) (h3 : ':' ∉ p3) (h4 : ':' ∉ p4) :
    splitOnColon (joinColon [p1, p2, p3, p4]) = [p1, p2, p3, p4] := by
  have hj : joinColon [p1, p2, p3, p4] =
      p1 ++ ':' :: (p2 ++ ':' :: (p3 ++ ':' :: p4)) := by
    simp [joinColon, List.intercalate]
  rw [hj, splitOnColon_append _ _ h1, splitOnColon_append _ _ h2,
    splitOnColon_append _ _ h3, splitOnColon_no_colon _ h4]

/-! ### The node `crypto` primitives, as parameters

`aes256gcm` packages the key derivation (`crypto.pbkdf2Sync(secret, salt,
100000, 32, 'sha512')`) and the AES-256-GCM cipher calls that
encryption.ts makes.  `Sound` states what the node standard library
guarantees of them: GCM decryption inverts encryption under the same key
and IV, GCM is length-preserving (counter-mode stream cipher), output
bytes are bytes, auth tags are 16 bytes, and a tag produced by encryption
verifies. -/
structure CryptoPrimitives where
  pbkdf2 : String → List Nat → List Nat
  aesGcmEncrypt : List Nat → List Nat → List Nat → List Nat
  aesGcmTag : List Nat → List Nat → List Nat → List Nat
  aesGcmDecrypt : List Nat → List Nat → List Nat → List Nat
  aesGcmVerify : List Nat → List Nat → List Nat → List Nat → Bool

/-- Correctness facts about the external cipher that the model relies on. -/
def CryptoPrimitives.Sound (P : CryptoPrimitives) : Prop :=
  (∀ k iv pt, P.aesGcmDecrypt k iv (P.aesGcmEncrypt k iv pt) = pt) ∧
  (∀ k iv pt, (P.aesGcmEncrypt k iv pt).length = pt.length) ∧
  (∀ k iv pt, (∀ b ∈ pt, b < 256) →
    ∀ b ∈ P.aesGcmEncrypt k iv pt, b < 256) ∧
  (∀ k iv pt, (P.aesGcmTag k iv pt).length = TAG_LENGTH) ∧
  (∀ k iv pt, ∀ b ∈ P.aesGcmTag k iv pt, b < 256) ∧
  (∀ k iv pt,
    P.aesGcmVerify k iv (P.aesGcmEncrypt k iv pt) (P.aesGcmTag k iv pt) = true)

/-- The `encrypt` function of encryption.ts: fresh (salt, iv) are arguments — the
source draws them from `crypto.randomBytes` per call; everything after
that draw is the deterministic function modelled here. -/
def encrypt (P : CryptoPrimitives) (encryptionKey : String)
    (salt iv text : List Nat) : List Char :=
  let key := P.pbkdf2 encryptionKey salt
  let encrypted := P.aesGcmEncrypt key iv text
  let authTag := P.aesGcmTag key iv text
  joinColon [b64Encode salt, b64Encode iv, b64Encode encrypted,
    b64Encode authTag]

/-- The `decrypt` function of encryption.ts.  The four components are the first four
`':'`-separated fields; a missing or empty field (`!saltB64 || …` — empty
strings are falsy in JavaScript) is rejected as
`Invalid encrypted text format`; a failed auth-tag check is the
`decipher.final()` throw. -/
def decrypt (P : CryptoPrimitives) (encryptionKey : String)
    (encryptedText : List Char) : Except String (List Nat) :=
  let parts := splitOnColon encryptedText
  let saltB64 := parts.getD 0 []
  let ivB64 := parts.getD 1 []
  let encryptedB64 := parts.getD 2 []
  let authTagB64 := parts.getD 3 []
  if saltB64 = [] ∨ ivB64 = [] ∨ encryptedB64 = [] ∨ authTagB64 = [] then
    .error "Invalid encrypted text format"
  else
    let salt := b64Decode saltB64
    let iv := b64Decode ivB64
    let encrypted := b64Decode encryptedB64
    let authTag := b64Decode authTagB64
    let key := P.pbkdf2 encryptionKey salt
    if P.aesGcmVerify key iv encrypted authTag then
      .ok (P.aesGcmDecrypt key iv encrypted)
    else
      .error "Unsupported state or unable to authenticate data"

/-- A sound instance of the cipher parameters (identity stream cipher with
a constant tag), used to evaluate the model at concrete inputs. -/
def trivialCrypto : CryptoPrimitives where
  pbkdf2 := fun _ salt => salt
  aesGcmEncrypt := fun _ _ pt => pt
  aesGcmTag := fun _ _ _ => List.replicate TAG_LENGTH 0
  aesGcmDecrypt := fun _ _ ct => ct
  aesGcmVerify := fun _ _ _ tg => tg == List.replicate TAG_LENGTH 0

theorem trivialCrypto_sound : trivialCrypto.Sound := by
  refine ⟨fun _ _ _ => rfl, fun _ _ _ => rfl, ?_, fun _ _ _ => rfl, ?_, ?_⟩
  · intro _ _ pt h b hb
    exact h b hb
  · intro _ _ _ b hb
    have := List.eq_of_mem_replicate hb
    omega
  · intro _ _ _
    simp [trivialCrypto]

/-- C5, counterexample: the round trip fails for the empty plaintext.
AES-GCM is length-preserving, so the ciphertext of `""` is the empty
buffer, its base64 field is the empty string, and `decrypt`'s falsy-field
check (`!encryptedB64`) rejects the serialization that `encrypt`
produced. -/
theorem C5_counterexample :
    decrypt trivialCrypto "secret"
        (encrypt trivialCrypto "secret" (List.replicate SALT_LENGTH 0)
          (List.replicate IV_LENGTH 1) []) =
      .error "Invalid encrypted text format" :=
  rfl

/-- C5, amended: for every non-empty byte-string plaintext,
`decrypt (encrypt text)` under the same process-wide secret returns
exactly `text` (for any sound cipher primitives), and the delimiter `':'`
never occurs inside any base64 component; for the empty plaintext,
`decrypt` rejects the serialization with `Invalid encrypted text format`
because the empty ciphertext field is falsy. -/
theorem C5_encrypt_decrypt_roundtrip (P : CryptoPrimitives) (hP : P.Sound)
    (encryptionKey : String) (salt iv text : List Nat)
    (hsl : salt.length = SALT_LENGTH) (hsB : ∀ b ∈ salt, b < 256)
    (hil : iv.length = IV_LENGTH) (hiB : ∀ b ∈ iv, b < 256)
    (htB : ∀ b ∈ text, b < 256) (hne : text ≠ []) :
    decrypt P encryptionKey (encrypt P encryptionKey salt iv text) =
      .ok text ∧
    (∀ l : List Nat, ':' ∉ b64Encode l) := by
  obtain ⟨hdec, hlen, hbytes, htaglen, htagbytes, hver⟩ := hP
  refine ⟨?_, colon_not_mem_b64Encode⟩
  have hsplit : splitOnColon (encrypt P encryptionKey salt iv text) =
      [b64Encode salt,
       b64Encode iv,
       b64Encode (P.aesGcmEncrypt (P.pbkdf2 encryptionKey salt) iv text),
       b64Encode (P.aesGcmTag (P.pbkdf2 encryptionKey salt) iv text)] := by
    rw [encrypt]
    exact splitOnColon_joinColon_four _ _ _ _ (colon_not_mem_b64Encode _)
      (colon_not_mem_b64Encode _) (colon_not_mem_b64Encode _)
      (colon_not_mem_b64Encode _)
  have hs_ne : b64Encode salt ≠ [] := by
    refine b64Encode_ne_nil _ ?_
    intro h
    rw [h] at hsl
    simp [SALT_LENGTH] at hsl
  have hi_ne : b64Encode iv ≠ [] := by
    refine b64Encode_ne_nil _ ?_
    intro h
    rw [h] at hil
    simp [IV_LENGTH] at hil
  have hc_ne :
      b64Encode (P.aesGcmEncrypt (P.pbkdf2 encryptionKey salt) iv text)
        ≠ [] := by
    refine b64Encode_ne_nil _ ?_
    intro h
    have := hlen (P.pbkdf2 encryptionKey salt) iv text
    rw [h] at this
    exact hne (List.eq_nil_of_length_eq_zero this.symm)
  have ht_ne :
      b64Encode (P.aesGcmTag (P.pbkdf2 encryptionKey salt) iv text)
        ≠ [] := by
    refine b64Encode_ne_nil _ ?_
    intro h
    have := htaglen (P.pbkdf2 encryptionKey salt) iv text
    rw [h] at this
    simp [TAG_LENGTH] at this
  rw [decrypt, hsplit]
  simp only [List.getD_cons_zero, List.getD_cons_succ]
  rw [if_neg (by
    push_neg
    exact ⟨hs_ne, hi_ne, hc_ne, ht_ne⟩)]
  rw [b64Decode_b64Encode salt hsB, b64Decode_b64Encode iv hiB,
    b64Decode_b64Encode _ (hbytes (P.pbkdf2 encryptionKey salt) iv text htB),
    b64Decode_b64Encode _ (htagbytes (P.pbkdf2 encryptionKey salt) iv text)]
  rw [if_pos (hver (P.pbkdf2 encryptionKey salt) iv text)]
  rw [hdec (P.pbkdf2 encryptionKey salt) iv text]

/-- C5, witness: concrete round trip at a sound cipher instance. -/
theorem C5_roundtrip_witness :
    decrypt trivialCrypto "secret"
        (encrypt trivialCrypto "secret" (List.replicate SALT_LENGTH 2)
          (List.replicate IV_LENGTH 3) [104, 105]) =
      .ok [104, 105] :=
  (C5_encrypt_decrypt_roundtrip trivialCrypto trivialCrypto_sound "secret"
    (List.replicate SALT_LENGTH 2) (List.replicate IV_LENGTH 3) [104, 105]
    (by decide) (by decide) (by decide) (by decide) (by decide)
    (by decide)).1

/-- C10: the serialized output's first two `':'`-separated components are
the base64 of the per-call salt and IV; any two calls whose (salt, IV)
pairs differ produce different first-two-component pairs; and the output
is a function only of (secret, salt, IV, plaintext) given the cipher
primitives. -/
theorem C10_encrypt_randomized (P : CryptoPrimitives) (ek ek' : String)
    (salt iv pt salt' iv' pt' : List Nat)
    (hsB : ∀ b ∈ salt, b < 256) (hsB' : ∀ b ∈ salt', b < 256)
    (hiB : ∀ b ∈ iv, b < 256) (hiB' : ∀ b ∈ iv', b < 256) :
    ((splitOnColon (encrypt P ek salt iv pt)).getD 0 [] = b64Encode salt ∧
     (splitOnColon (encrypt P ek salt iv pt)).getD 1 [] = b64Encode iv) ∧
    ((salt, iv) ≠ (salt', iv') →
      ((splitOnColon (encrypt P ek salt iv pt)).getD 0 [],
       (splitOnColon (encrypt P ek salt iv pt)).getD 1 []) ≠
      ((splitOnColon (encrypt P ek' salt' iv' pt')).getD 0 [],
       (splitOnColon (encrypt P ek' salt' iv' pt')).getD 1 [])) ∧
    (∀ (Q : CryptoPrimitives) (k1 k2 : String) (s1 i1 t1 s2 i2 t2 : List Nat),
      k1 = k2 → s1 = s2 → i1 = i2 → t1 = t2 →
      encrypt Q k1 s1 i1 t1 = encrypt Q k2 s2 i2 t2) := by
  have hfirst : ∀ (Q : CryptoPrimitives) (k : String) (s i t : List Nat),
      (splitOnColon (encrypt Q k s i t)).getD 0 [] = b64Encode s ∧
      (splitOnColon (encrypt Q k s i t)).getD 1 [] = b64Encode i := by
    intro Q k s i t
    have hsplit : splitOnColon (encrypt Q k s i t) =
        [b64Encode s, b64Encode i,
         b64Encode (Q.aesGcmEncrypt (Q.pbkdf2 k s) i t),
         b64Encode (Q.aesGcmTag (Q.pbkdf2 k s) i t)] := by
      rw [encrypt]
      exact splitOnColon_joinColon_four _ _ _ _ (colon_not_mem_b64Encode _)
        (colon_not_mem_b64Encode _) (colon_not_mem_b64Encode _)
        (colon_not_mem_b64Encode _)
    rw [hsplit]
    simp
  refine ⟨hfirst P ek salt iv pt, ?_, ?_⟩
  · intro hne heq
    rw [(hfirst P ek salt iv pt).1, (hfirst P ek salt iv pt).2,
      (hfirst P ek' salt' iv' pt').1, (hfirst P ek' salt' iv' pt').2] at heq
    have h1 : b64Encode salt = b64Encode salt' := congrArg Prod.fst heq
    have h2 : b64Encode iv = b64Encode iv' := congrArg Prod.snd heq
    have hsalt : salt = salt' := by
      rw [← b64Decode_b64Encode salt hsB, ← b64Decode_b64Encode salt' hsB',
        h1]
    have hiv : iv = iv' := by
      rw [← b64Decode_b64Encode iv hiB, ← b64Decode_b64Encode iv' hiB', h2]
    exact hne (by rw [hsalt, hiv])
  · intro Q k1 k2 s1 i1 t1 s2 i2 t2 hk hs hi ht
    rw [hk, hs, hi, ht]

/-- C10, witness: two calls with different (salt, IV) pairs at a concrete
instance have different leading components. -/
theorem C10_encrypt_randomized_witness :
    ((splitOnColon (encrypt trivialCrypto "k" [0] [1] [5])).getD 0 [],
     (splitOnColon (encrypt trivialCrypto "k" [0] [1] [5])).getD 1 []) ≠
    ((splitOnColon (encrypt trivialCrypto "k" [2] [1] [5])).getD 0 [],
     (splitOnColon (encrypt trivialCrypto "k" [2] [1] [5])).getD 1 []) :=
  (C10_encrypt_randomized trivialCrypto "k" "k" [0] [1] [5] [2] [1] [5]
    (by decide) (by decide) (by decide) (by decide)).2.1 (by decide)

/-! ## Credential Lifecycle Manager

`isTokenExpired` (src/lib/youtube/oauth.ts) and `getYouTubeTokens`
(src/lib/youtube/token-manager.ts).  The database row, the wall clock, the
outcome of the outbound refresh call, and the success of the persisting
update are explicit parameters; the function returns the result together
with the stored row afterwards, so row preservation is expressible. -/

/-- A row of `oauth_tokens` (001_initial_schema.sql): secrets are stored
encrypted in the serialized `salt:iv:ciphertext:tag` form; `expires_at`
in ms since epoch. -/
structure OAuthTokenRow where
  church_id : Nat
  provider : String
  access_token : List Char
  refresh_token : Option (List Char)
  expires_at : Option Int
  scope : String
  token_type : String
deriving DecidableEq

/-- Result of the outbound `refreshAccessToken` call: new access token
plaintext and optional new expiry. -/
structure RefreshedTokens where
  access_token : List Nat
  expiry_date : Option Int
deriving DecidableEq

/-- The `YouTubeTokens` interface of token-manager.ts (decrypted). -/
structure YouTubeTokens where
  accessToken : List Nat
  refreshToken : Option (List Nat)
  expiresAt : Option Int
deriving DecidableEq

/-- The `isTokenExpired` check of oauth.ts: no expiry means invalid; otherwise
expired when within `bufferMinutes` of expiry.  JavaScript's `!expiryDate`
is also truthy for the number `0`, so an epoch-zero expiry reports
expired regardless of `now`. -/
def isTokenExpired (expiryDate : Option Int) (bufferMinutes now : Int) :
    Bool :=
  match expiryDate with
  | none => true
  | some e =>
      if e = 0 then true
      else decide (e - bufferMinutes * 60 * 1000 < now)

/-- The `getYouTubeTokens` function of token-manager.ts for one church: `row?` is the
stored `oauth_tokens` row for (church, 'youtube'), `now` the clock,
`refreshResult` the outcome of the outbound refresh call, `salt`/`iv` the
randomness the re-encryption draws, `updateOk` whether the persisting
update succeeds.  Returns the thrown-or-returned result and the stored
row afterwards. -/
def getYouTubeTokens (P : CryptoPrimitives) (encryptionKey : String)
    (salt iv : List Nat) (row? : Option OAuthTokenRow) (now : Int)
    (refreshResult : Except String RefreshedTokens) (updateOk : Bool) :
    Except String YouTubeTokens × Option OAuthTokenRow :=
  match row? with
  | none =>
      (.error "YouTube not connected. Please connect your YouTube channel first.",
       none)
  | some row =>
    match decrypt P encryptionKey row.access_token with
    | .error e => (.error e, some row)
    | .ok decryptedAccessToken =>
      match (match row.refresh_token with
             | none => Except.ok none
             | some rt => (decrypt P encryptionKey rt).map some :
             Except String (Option (List Nat))) with
      | .error e => (.error e, some row)
      | .ok decryptedRefreshToken =>
        if isTokenExpired row.expires_at 5 now then
          match decryptedRefreshToken with
          | none =>
              (.error "YouTube access token expired and no refresh token available. Please reconnect your YouTube channel.",
               some row)
          | some rt =>
            match refreshResult with
            | .error e =>
                (.error ("Failed to refresh YouTube access token: " ++ e ++
                  ". Please reconnect your YouTube channel."),
                 some row)
            | .ok newTokens =>
                let encryptedAccessToken :=
                  encrypt P encryptionKey salt iv newTokens.access_token
                if updateOk then
                  (.ok ⟨newTokens.access_token, some rt,
                      newTokens.expiry_date⟩,
                   some { row with
                     access_token := encryptedAccessToken,
                     expires_at := newTokens.expiry_date })
                else
                  (.error ("Failed to refresh YouTube access token: Failed to save refreshed access token" ++
                    ". Please reconnect your YouTube channel."),
                   some row)
        else
          (.ok ⟨decryptedAccessToken, decryptedRefreshToken,
              row.expires_at⟩,
           some row)

/-- C3: when the stored expiry is unset or inside the 5-minute buffer,
`getYouTubeTokens` never returns the stale stored secret: it either fails,
or the refresh call succeeded and the returned value is the refreshed
secret with its new expiry. -/
theorem C3_get_never_returns_stale (P : CryptoPrimitives)
    (encryptionKey : String) (salt iv : List Nat) (row : OAuthTokenRow)
    (now : Int) (refreshResult : Except String RefreshedTokens)
    (updateOk : Bool)
    (hexp : isTokenExpired row.expires_at 5 now = true) :
    (∃ e, (getYouTubeTokens P encryptionKey salt iv (some row) now
        refreshResult updateOk).1 = .error e) ∨
    (∃ nt rt, refreshResult = .ok nt ∧
      (getYouTubeTokens P encryptionKey salt iv (some row) now
          refreshResult updateOk).1 =
        .ok ⟨nt.access_token, some rt, nt.expiry_date⟩) := by
  rw [getYouTubeTokens]
  cases hacc : decrypt P encryptionKey row.access_token with
  | error e => exact .inl ⟨e, rfl⟩
  | ok acc =>
    cases hrt : (match row.refresh_token with
                 | none => Except.ok none
                 | some rt => (decrypt P encryptionKey rt).map some :
                 Except String (Option (List Nat))) with
    | error e => exact .inl ⟨e, rfl⟩
    | ok decRT =>
      dsimp only
      rw [if_pos hexp]
      cases decRT with
      | none => exact .inl ⟨_, rfl⟩
      | some rt =>
        cases refreshResult with
        | error e => exact .inl ⟨_, rfl⟩
        | ok nt =>
          cases updateOk with
          | false => exact .inl ⟨_, rfl⟩
          | true => exact .inr ⟨nt, rt, rfl, rfl⟩

/-- C3, witness: a stored row with no expiry and a failing refresh call
yields an error. -/
theorem C3_get_never_returns_stale_witness :
    (∃ e, (getYouTubeTokens trivialCrypto "k" [1] [2]
        (some ⟨7, "youtube", encrypt trivialCrypto "k" [3] [4] [10],
          none, none, "", "Bearer"⟩) 1000
        (.error "network") true).1 = .error e) ∨
    (∃ nt rt, (.error "network" : Except String RefreshedTokens) = .ok nt ∧
      (getYouTubeTokens trivialCrypto "k" [1] [2]
          (some ⟨7, "youtube", encrypt trivialCrypto "k" [3] [4] [10],
            none, none, "", "Bearer"⟩) 1000
          (.error "network") true).1 =
        .ok ⟨nt.access_token, some rt, nt.expiry_date⟩) :=
  C3_get_never_returns_stale trivialCrypto "k" [1] [2]
    ⟨7, "youtube", encrypt trivialCrypto "k" [3] [4] [10],
      none, none, "", "Bearer"⟩ 1000 (.error "network") true rfl

/-- C4: when the stored credential is expired (or inside the buffer), the
stored secrets decrypt, a refresh secret is present, and the outbound
refresh call fails, `getYouTubeTokens` raises the reconnect error and the
stored row is exactly the row it started with — no deletion, no partial
update. -/
theorem C4_failed_refresh_preserves_row (P : CryptoPrimitives)
    (encryptionKey : String) (salt iv : List Nat) (row : OAuthTokenRow)
    (now : Int) (e : String) (updateOk : Bool) (accTok : List Nat)
    (rtEnc : List Char) (rtTok : List Nat)
    (hexp : isTokenExpired row.expires_at 5 now = true)
    (hacc : decrypt P encryptionKey row.access_token = .ok accTok)
    (hrt : row.refresh_token = some rtEnc)
    (hrtDec : decrypt P encryptionKey rtEnc = .ok rtTok) :
    getYouTubeTokens P encryptionKey salt iv (some row) now
        (.error e) updateOk =
      (.error ("Failed to refresh YouTube access token: " ++ e ++
        ". Please reconnect your YouTube channel."),
       some row) := by
  rw [getYouTubeTokens, hacc, hrt]
  dsimp only
  rw [hrtDec]
  dsimp only [Except.map]
  rw [if_pos hexp]

/-- C4, witness: concrete expired row round-tripped through the model. -/
theorem C4_failed_refresh_preserves_row_witness :
    getYouTubeTokens trivialCrypto "k" [1] [2]
        (some ⟨7, "youtube", encrypt trivialCrypto "k" [3] [4] [10],
          some (encrypt trivialCrypto "k" [5] [6] [11]), some 1, "s",
          "Bearer"⟩) 99999999
        (.error "transient") false =
      (.error ("Failed to refresh YouTube access token: " ++ "transient" ++
        ". Please reconnect your YouTube channel."),
       some ⟨7, "youtube", encrypt trivialCrypto "k" [3] [4] [10],
          some (encrypt trivialCrypto "k" [5] [6] [11]), some 1, "s",
          "Bearer"⟩) :=
  C4_failed_refresh_preserves_row trivialCrypto "k" [1] [2]
    ⟨7, "youtube", encrypt trivialCrypto "k" [3] [4] [10],
      some (encrypt trivialCrypto "k" [5] [6] [11]), some 1, "s",
      "Bearer"⟩ 99999999 "transient" false [10] _ [11]
    (by decide) rfl rfl rfl

/-! ## Vector Retrieval Engine

`search_transcripts` of src/supabase/migrations/003_pgvector_setup.sql.
Embeddings are rational vectors; pgvector's cosine-distance operator
`<=>` is a parameter `dist` (the SQL only uses it for ordering and for
the derived similarity column). -/

/-- A row of `transcripts` (001_initial_schema.sql). -/
structure TranscriptRow where
  id : Nat
  church_id : Nat
  video_id : Nat
  segment_index : Nat
  start_time : ℚ
  end_time : ℚ
  text : String
  language : Option String
  embedding : Option (List ℚ)
deriving DecidableEq

/-- The `RETURNS TABLE` shape of `search_transcripts`: note it does not
expose `church_id`. -/
structure SearchResult where
  id : Nat
  video_id : Nat
  segment_index : Nat
  start_time : ℚ
  end_time : ℚ
  text : String
  language : Option String
  similarity : ℚ
deriving DecidableEq

/-- The `SELECT` projection of `search_transcripts`:
`similarity = 1 - (t.embedding <=> query_embedding)`. -/
def searchRow (dist : List ℚ → List ℚ → ℚ) (query_embedding : List ℚ)
    (t : TranscriptRow) : SearchResult :=
  ⟨t.id, t.video_id, t.segment_index, t.start_time, t.end_time, t.text,
   t.language, 1 - dist (t.embedding.getD []) query_embedding⟩

/-- The function `search_transcripts(query_embedding, match_church_id, match_count)`:
filter to the tenant's rows with non-null embedding, order by ascending
distance to the query, return at most `match_count` projected rows. -/
def search_transcripts (dist : List ℚ → List ℚ → ℚ)
    (db : List TranscriptRow) (query_embedding : List ℚ)
    (match_church_id : Nat) (match_count : Nat) : List SearchResult :=
  let eligible := db.filter fun t =>
    t.church_id == match_church_id && t.embedding.isSome
  let sorted := eligible.insertionSort fun a b =>
    dist (a.embedding.getD []) query_embedding ≤
    dist (b.embedding.getD []) query_embedding
  (sorted.take match_count).map (searchRow dist query_embedding)

theorem mem_search_transcripts (dist : List ℚ → List ℚ → ℚ)
    (db : List TranscriptRow) (q : List ℚ) (cid k : Nat) (r : SearchResult)
    (hr : r ∈ search_transcripts dist db q cid k) :
    ∃ t ∈ db, t.church_id = cid ∧ t.embedding ≠ none ∧
      r = searchRow dist q t := by
  rw [search_transcripts] at hr
  obtain ⟨t, ht, rfl⟩ := List.mem_map.mp hr
  have ht' : t ∈ (db.filter fun t =>
      t.church_id == cid && t.embedding.isSome).insertionSort fun a b =>
        dist (a.embedding.getD []) q ≤ dist (b.embedding.getD []) q :=
    List.mem_of_mem_take ht
  have ht'' := (List.mem_insertionSort _).mp ht'
  have := List.mem_filter.mp ht''
  refine ⟨t, this.1, ?_, ?_, rfl⟩
  · have := this.2
    simp only [Bool.and_eq_true, beq_iff_eq] at this
    exact this.1
  · have := this.2
    simp only [Bool.and_eq_true, beq_iff_eq, Option.isSome_iff_exists] at this
    obtain ⟨_, _, h⟩ := this
    simp [h]

/-- C6: every row returned by `search_transcripts` for tenant A belongs
to a stored transcript row of tenant A with a non-null embedding; under
the primary-key uniqueness of `transcripts.id`, no returned row carries
the id of a row of any other tenant B. -/
theorem C6_search_tenant_isolation (dist : List ℚ → List ℚ → ℚ)
    (db : List TranscriptRow) (q : List ℚ) (cid k : Nat) :
    (∀ r ∈ search_transcripts dist db q cid k,
      ∃ t ∈ db, t.church_id = cid ∧ t.embedding ≠ none ∧
        r = searchRow dist q t) ∧
    ((db.map TranscriptRow.id).Nodup →
      ∀ r ∈ search_transcripts dist db q cid k,
        ∀ t ∈ db, t.id = r.id → t.church_id = cid) := by
  refine ⟨fun r hr => mem_search_transcripts dist db q cid k r hr, ?_⟩
  intro hids r hr t ht hid
  obtain ⟨s, hs, hcid, _, rfl⟩ := mem_search_transcripts dist db q cid k r hr
  have hts : t = s :=
    List.inj_on_of_nodup_map hids ht hs (by simpa [searchRow] using hid)
  rw [hts]
  exact hcid

/-- C6, witness: tenant 200's nearest row is never returned for a search
by tenant 100. -/
theorem C6_search_tenant_isolation_witness :
    ∀ t ∈ [(⟨1, 100, 1, 0, 0, 0, "a", none, some [1]⟩ : TranscriptRow),
           ⟨2, 200, 2, 0, 0, 0, "b", none, some [1]⟩],
      t.id = ((searchRow (fun _ _ => 0) [1]
        (⟨1, 100, 1, 0, 0, 0, "a", none, some [1]⟩ : TranscriptRow)).id) →
      t.church_id = 100 :=
  (C6_search_tenant_isolation (fun _ _ => 0)
    [⟨1, 100, 1, 0, 0, 0, "a", none, some [1]⟩,
     ⟨2, 200, 2, 0, 0, 0, "b", none, some [1]⟩] [1] 100 10).2
    (by decide) _ (by
      have hEq : search_transcripts (fun _ _ => 0)
          [⟨1, 100, 1, 0, 0, 0, "a", none, some [1]⟩,
           ⟨2, 200, 2, 0, 0, 0, "b", none, some [1]⟩] [1] 100 10 =
          [searchRow (fun _ _ => 0) [1]
            ⟨1, 100, 1, 0, 0, 0, "a", none, some [1]⟩] := rfl
      rw [hEq]
      exact List.mem_singleton_self _)

/-- C7: `search_transcripts` returns at most `match_count` rows, ordered
by non-increasing similarity, and each row's similarity is `1 - dist`
between its stored embedding and the query. -/
theorem C7_search_limit_and_order (dist : List ℚ → List ℚ → ℚ)
    (db : List TranscriptRow) (q : List ℚ) (cid k : Nat) :
    (search_transcripts dist db q cid k).length ≤ k ∧
    (search_transcripts dist db q cid k).Sorted
      (fun a b => b.similarity ≤ a.similarity) ∧
    (∀ r ∈ search_transcripts dist db q cid k,
      ∃ t ∈ db, r = searchRow dist q t ∧
        r.similarity = 1 - dist (t.embedding.getD []) q) := by
  refine ⟨?_, ?_, ?_⟩
  · rw [search_transcripts]
    simp only [List.length_map]
    exact List.length_take_le _ _
  · rw [search_transcripts]
    haveI : IsTotal TranscriptRow (fun a b =>
        dist (a.embedding.getD []) q ≤ dist (b.embedding.getD []) q) :=
      ⟨fun a b => le_total _ _⟩
    haveI : IsTrans TranscriptRow (fun a b =>
        dist (a.embedding.getD []) q ≤ dist (b.embedding.getD []) q) :=
      ⟨fun _ _ _ hab hbc => le_trans hab hbc⟩
    have hsorted := List.sorted_insertionSort (fun a b =>
        dist (a.embedding.getD []) q ≤ dist (b.embedding.getD []) q)
      (db.filter fun t => t.church_id == cid && t.embedding.isSome)
    have htake := hsorted.sublist (List.take_sublist k _)
    rw [List.Sorted, List.pairwise_map]
    refine htake.imp ?_
    intro a b hab
    simp only [searchRow]
    linarith
  · intro r hr
    obtain ⟨t, ht, _, _, rfl⟩ := mem_search_transcripts dist db q cid k r hr
    exact ⟨t, ht, rfl, rfl⟩

/-- C7, witness: at most 1 row returned with `match_count = 1` on a
two-row table. -/
theorem C7_search_limit_witness :
    (search_transcripts (fun _ _ => 0)
      [⟨1, 100, 1, 0, 0, 0, "a", none, some [1]⟩,
       ⟨3, 100, 1, 1, 0, 0, "c", none, some [2]⟩] [1] 100 1).length ≤ 1 :=
  (C7_search_limit_and_order (fun _ _ => 0)
    [⟨1, 100, 1, 0, 0, 0, "a", none, some [1]⟩,
     ⟨3, 100, 1, 1, 0, 0, "c", none, some [2]⟩] [1] 100 1).1

/-! ## Credential storage: one row per (tenant, provider)

The `oauth_tokens` table carries `UNIQUE(church_id, provider)`
(001_initial_schema.sql) and the OAuth callback writes through
`.upsert(..., { onConflict: 'church_id,provider' })`
(src/app/api/youtube/callback/route.ts): on conflict the single existing
row is replaced with the supplied values, otherwise a row is inserted. -/

/-- Two rows collide on the `UNIQUE(church_id, provider)` key. -/
def sameKey (a b : OAuthTokenRow) : Prop :=
  a.church_id = b.church_id ∧ a.provider = b.provider

instance (a b : OAuthTokenRow) : Decidable (sameKey a b) := by
  unfold sameKey; infer_instance

/-- The table invariant enforced by `UNIQUE(church_id, provider)`. -/
def UniqueKeys (tbl : List OAuthTokenRow) : Prop :=
  tbl.Pairwise fun a b => ¬ sameKey a b

/-- The callback's upsert with `onConflict: 'church_id,provider'`. -/
def upsert_oauth_token (tbl : List OAuthTokenRow) (r : OAuthTokenRow) :
    List OAuthTokenRow :=
  if tbl.any (fun t => decide (sameKey t r)) then
    tbl.map fun t => if sameKey t r then r else t
  else
    tbl ++ [r]

theorem countP_sameKey_le_one (tbl : List OAuthTokenRow)
    (r : OAuthTokenRow) (hU : UniqueKeys tbl) :
    tbl.countP (fun t => decide (sameKey t r)) ≤ 1 := by
  induction tbl with
  | nil => simp
  | cons a l ih =>
    have hU' : UniqueKeys l := (List.pairwise_cons.mp hU).2
    have hhead := (List.pairwise_cons.mp hU).1
    by_cases ha : sameKey a r
    · rw [List.countP_cons_of_pos _ _ (by simpa using ha)]
      have hzero : l.countP (fun t => decide (sameKey t r)) = 0 := by
        rw [List.countP_eq_zero]
        intro t htl
        simp only [decide_eq_true_eq]
        intro hts
        exact hhead t htl ⟨ha.1.trans hts.1.symm, ha.2.trans hts.2.symm⟩
      omega
    · rw [List.countP_cons_of_neg _ _ (by simpa using ha)]
      exact ih hU'

theorem countP_upsert_sameKey (tbl : List OAuthTokenRow)
    (r : OAuthTokenRow) (hU : UniqueKeys tbl) :
    (upsert_oauth_token tbl r).countP (fun t => decide (sameKey t r)) = 1 := by
  have hself : sameKey r r := ⟨rfl, rfl⟩
  rw [upsert_oauth_token]
  split
  · rename_i hany
    rw [List.countP_map]
    have hpt : ∀ t : OAuthTokenRow,
        (fun t => decide (sameKey t r))
            ((fun t => if sameKey t r then r else t) t) =
          decide (sameKey t r) := by
      intro t
      by_cases h : sameKey t r
      · simp [h, hself]
      · simp [h]
    rw [show ((fun t => decide (sameKey t r)) ∘
        fun t => if sameKey t r then r else t) =
        (fun t => decide (sameKey t r)) from funext hpt]
    obtain ⟨t, htl, hts⟩ := List.any_eq_true.mp hany
    have hpos : 0 < tbl.countP (fun t => decide (sameKey t r)) :=
      List.countP_pos_iff.mpr ⟨t, htl, hts⟩
    have := countP_sameKey_le_one tbl r hU
    omega
  · rename_i hany
    rw [List.countP_append]
    have hforall : ∀ x ∈ tbl, ¬ sameKey x r := by simpa using hany
    have hzero : tbl.countP (fun t => decide (sameKey t r)) = 0 := by
      rw [List.countP_eq_zero]
      intro t htl
      simpa using hforall t htl
    simp [hzero, hself]

/-- C9: for every table satisfying the uniqueness constraint, the upsert
preserves it, leaves exactly one row for the written (tenant, provider)
key, that row carries exactly the written values (last write wins), and a
repeated store with the same key never adds a row. -/
theorem C9_store_upsert_idempotent (tbl : List OAuthTokenRow)
    (r : OAuthTokenRow) (hU : UniqueKeys tbl) :
    UniqueKeys (upsert_oauth_token tbl r) ∧
    (upsert_oauth_token tbl r).countP (fun t => decide (sameKey t r)) = 1 ∧
    (∀ t ∈ upsert_oauth_token tbl r, sameKey t r → t = r) ∧
    (∀ r', sameKey r' r →
      (upsert_oauth_token (upsert_oauth_token tbl r) r').length =
        (upsert_oauth_token tbl r).length) := by
  have hself : sameKey r r := ⟨rfl, rfl⟩
  refine ⟨?_, countP_upsert_sameKey tbl r hU, ?_, ?_⟩
  · rw [upsert_oauth_token]
    split
    · refine List.Pairwise.map _ ?_ hU
      intro a b hab hfab
      apply hab
      by_cases h1 : sameKey a r
      · by_cases h2 : sameKey b r
        · exact ⟨h1.1.trans h2.1.symm, h1.2.trans h2.2.symm⟩
        · rw [if_pos h1, if_neg h2] at hfab
          exact absurd ⟨hfab.1.symm, hfab.2.symm⟩ h2
      · rw [if_neg h1] at hfab
        by_cases h2 : sameKey b r
        · rw [if_pos h2] at hfab
          exact absurd hfab h1
        · rw [if_neg h2] at hfab
          exact hfab
    · rename_i hany
      rw [UniqueKeys, List.pairwise_append]
      refine ⟨hU, by simp, ?_⟩
      intro a hal b hbr
      have hb : b = r := by simpa using hbr
      rw [hb]
      have hforall : ∀ x ∈ tbl, ¬ sameKey x r := by simpa using hany
      exact hforall a hal
  · rw [upsert_oauth_token]
    split
    · intro t htm hts
      obtain ⟨s, hsl, hst⟩ := List.mem_map.mp htm
      by_cases h : sameKey s r
      · rw [if_pos h] at hst
        exact hst.symm
      · rw [if_neg h] at hst
        rw [← hst] at hts
        exact absurd hts h
    · rename_i hany
      intro t htm hts
      have hforall : ∀ x ∈ tbl, ¬ sameKey x r := by simpa using hany
      rcases List.mem_append.mp htm with h | h
      · exact absurd hts (hforall t h)
      · simpa using h
  · intro r' hr'
    have hexists : (upsert_oauth_token tbl r).any
        (fun t => decide (sameKey t r')) = true := by
      rw [List.any_eq_true]
      have h1 := countP_upsert_sameKey tbl r hU
      have hpos : 0 < (upsert_oauth_token tbl r).countP
          (fun t => decide (sameKey t r)) := by omega
      obtain ⟨t, htm, hts⟩ := List.countP_pos_iff.mp hpos
      simp only [decide_eq_true_eq] at hts ⊢
      exact ⟨t, htm, hts.1.trans hr'.1.symm, hts.2.trans hr'.2.symm⟩
    rw [upsert_oauth_token, if_pos hexists, List.length_map]

/-- C9, witness: upserting a conflicting row into a one-row table leaves
exactly one row for the key. -/
theorem C9_store_upsert_idempotent_witness :
    (upsert_oauth_token
        [⟨1, "youtube", ['a'], none, none, "", "Bearer"⟩]
        ⟨1, "youtube", ['b'], none, some 5, "s", "Bearer"⟩).countP
      (fun t => decide (sameKey t
        ⟨1, "youtube", ['b'], none, some 5, "s", "Bearer"⟩)) = 1 :=
  (C9_store_upsert_idempotent
    [⟨1, "youtube", ['a'], none, none, "", "Bearer"⟩]
    ⟨1, "youtube", ['b'], none, some 5, "s", "Bearer"⟩
    (by simp [UniqueKeys])).2.1

/-! ## Processing jobs: at most one active job per (video, job type)

Only the `processing_jobs` schema (001_initial_schema.sql lines 102–122)
is in the repository; the dispatch routine itself runs in external n8n
workflows.  `dispatch_job` is modelled from the spec (§4.2, §5): check
for an active job of the same type for the video and reject with a
`JobAlreadyActive` signal instead of inserting a duplicate. -/

/-- The `processing_jobs.status` values. -/
inductive JobStatus where
  | pending
  | running
  | completed
  | failed
deriving DecidableEq, Repr

/-- The columns of `processing_jobs` the dispatch logic reads. -/
structure ProcessingJob where
  church_id : Nat
  video_id : Option Nat
  job_type : String
  status : JobStatus
deriving DecidableEq

/-- A job counts as active while `pending` or `running`. -/
def jobActive (j : ProcessingJob) : Bool :=
  j.status == .pending || j.status == .running

/-- Number of active jobs of one type for one video. -/
def activeCount (jobs : List ProcessingJob) (video : Option Nat)
    (jtype : String) : Nat :=
  jobs.countP fun j =>
    (j.video_id == video) && (j.job_type == jtype) && jobActive j

/-- The invariant of §4.2: at most one active job per (video, job type). -/
def AtMostOneActive (jobs : List ProcessingJob) : Prop :=
  ∀ video jtype, activeCount jobs video jtype ≤ 1

/-- Modelled from the spec: the job-dispatch routine is not part of the
repository source (jobs are created and driven by external n8n
workflows; src/ only has the `processing_jobs` schema).  Per §4.2/§5 a
dispatch request for a (video, type) that already has a pending/running
job is rejected with a `JobAlreadyActive` signal; otherwise one `pending`
row is inserted. -/
def dispatch_job (jobs : List ProcessingJob) (church : Nat)
    (video : Option Nat) (jtype : String) :
    Except String (List ProcessingJob) :=
  if jobs.any (fun j =>
      (j.video_id == video) && (j.job_type == jtype) && jobActive j) then
    .error "JobAlreadyActive"
  else
    .ok (jobs ++ [⟨church, video, jtype, .pending⟩])

/-- Modelled from the spec: a worker transitions one job forward
(`pending → running → completed/failed`); terminal rows never reactivate
and new rows are only created by dispatch. -/
def advance_job (jobs : List ProcessingJob) (i : Nat) (s : JobStatus) :
    List ProcessingJob :=
  match jobs[i]? with
  | none => jobs
  | some j =>
      if jobActive j ∧ s ≠ .pending then
        jobs.set i { j with status := s }
      else jobs

theorem countP_set_le {α : Type} (p : α → Bool) (l : List α) (i : Nat)
    (x j : α) (hj : l[i]? = some j) (himp : p x = true → p j = true) :
    (l.set i x).countP p ≤ l.countP p := by
  induction l generalizing i with
  | nil => simp at hj
  | cons a t ih =>
    cases i with
    | zero =>
      simp only [List.getElem?_cons_zero, Option.some_inj] at hj
      subst hj
      rw [List.set_cons_zero, List.countP_cons, List.countP_cons]
      by_cases hx : p x = true
      · rw [if_pos hx, if_pos (himp hx)]
      · rw [if_neg hx]
        omega
    | succ n =>
      simp only [List.getElem?_cons_succ] at hj
      rw [List.set_cons_succ, List.countP_cons, List.countP_cons]
      have := ih n hj
      omega

/-- C8: on a ledger with at most one active job per (video, type), a
dispatch request for a type that already has an active job for the video
is rejected without inserting anything; an accepted dispatch appends one
`pending` row and preserves the invariant; and forward job transitions
preserve the invariant. -/
theorem C8_dispatch_no_duplicate_active (jobs : List ProcessingJob)
    (church : Nat) (video : Option Nat) (jtype : String)
    (hinv : AtMostOneActive jobs) :
    ((∃ j ∈ jobs, j.video_id = video ∧ j.job_type = jtype ∧
        jobActive j = true) →
      dispatch_job jobs church video jtype = .error "JobAlreadyActive") ∧
    (∀ jobs', dispatch_job jobs church video jtype = .ok jobs' →
      jobs' = jobs ++ [⟨church, video, jtype, .pending⟩] ∧
      AtMostOneActive jobs') ∧
    (∀ i s, AtMostOneActive (advance_job jobs i s)) := by
  refine ⟨?_, ?_, ?_⟩
  · intro ⟨j, hjm, hv, ht, ha⟩
    rw [dispatch_job, if_pos]
    rw [List.any_eq_true]
    exact ⟨j, hjm, by simp [hv, ht, ha]⟩
  · intro jobs' hok
    rw [dispatch_job] at hok
    split at hok
    · exact absurd hok (by simp)
    · rename_i hany
      have hjobs' : jobs' = jobs ++ [⟨church, video, jtype, .pending⟩] := by
        simpa using hok.symm
      refine ⟨hjobs', ?_⟩
      intro v t
      rw [hjobs', activeCount, List.countP_append]
      by_cases hmatch : v = video ∧ t = jtype
      · have hforall : ∀ x ∈ jobs, x.video_id = video → x.job_type = jtype →
            jobActive x = false := by simpa using hany
        have hzero : activeCount jobs video jtype = 0 := by
          rw [activeCount, List.countP_eq_zero]
          intro j hjm
          simp only [Bool.and_eq_true, beq_iff_eq]
          rintro ⟨⟨h1, h2⟩, h3⟩
          rw [hforall j hjm h1 h2] at h3
          exact Bool.noConfusion h3
        rw [activeCount] at hzero
        rw [hmatch.1, hmatch.2, hzero]
        simp [jobActive]
      · have hone : (List.countP (fun j =>
            (j.video_id == v) && (j.job_type == t) && jobActive j)
            [(⟨church, video, jtype, .pending⟩ : ProcessingJob)]) = 0 := by
          rw [List.countP_eq_zero]
          intro j hjm
          rw [List.mem_singleton] at hjm
          subst hjm
          simp only [Bool.and_eq_true, beq_iff_eq]
          intro hcon
          exact hmatch ⟨hcon.1.1.symm, hcon.1.2.symm⟩
        rw [hone]
        have := hinv v t
        rw [activeCount] at this
        omega
  · intro i s
    cases hj : jobs[i]? with
    | none =>
      simp only [advance_job, hj]
      exact hinv
    | some j =>
      simp only [advance_job, hj]
      split
      · rename_i hguard
        intro v t
        have h1 := hinv v t
        rw [activeCount] at h1 ⊢
        refine le_trans (countP_set_le _ jobs i _ j hj ?_) h1
        simp only [Bool.and_eq_true, beq_iff_eq]
        intro hx
        exact ⟨⟨hx.1.1, hx.1.2⟩, hguard.1⟩
      · exact hinv

/-- C8, witness: dispatching a transcription job for a video that already
has a pending transcription job is rejected. -/
theorem C8_dispatch_no_duplicate_active_witness :
    dispatch_job [⟨1, some 5, "transcription", .pending⟩] 1 (some 5)
        "transcription" = .error "JobAlreadyActive" :=
  (C8_dispatch_no_duplicate_active [⟨1, some 5, "transcription", .pending⟩]
    1 (some 5) "transcription"
    (fun v t => le_trans (List.countP_le_length _) (by simp))).1
    ⟨⟨1, some 5, "transcription", .pending⟩, by simp, rfl, rfl, rfl⟩

end ChurchBot
